/-
  Verification of the cpackget pack installation engine
  (step-security-bot/cpackget, Go) against its natural-language
  specification.

  Shallow embedding conventions:
  - filesystem paths are lists of path components;
  - the pack-root filesystem is an explicit state value (files with
    content and a read-only bit, plus a set of directories);
  - fallible Go functions become functions into `Except Err`, or return
    the new filesystem state together with an `Except Err` result;
  - semantic versions are triples of naturals compared lexicographically
    (golang.org/x/mod/semver order on well-formed X.Y.Z versions).
-/
import Mathlib

namespace Cpackget

/-- Filesystem paths are modelled as lists of path components
    (the Go code joins components with the path separator). -/
abbrev Path := List String

/-- Error values, mirroring src/cmd/errors/errors.go.  `OsPathNotExist`
    stands for the raw *PathError that os.Remove / os.Stat / os.Rename
    return for a missing path; the Go code propagates it unwrapped. -/
inductive Err where
  | BadRequest
  | FailedDownloadingFile
  | FailedCreatingFile
  | FailedWrittingToLocalFile
  | FailedDecompressingFile
  | InsecureZipFileName
  | FileTooBig
  | PdscFileNotFound
  | PdscFileTooDeepInPack
  | ReadingPdsc
  | PackVersionNotFoundInPdsc
  | PackVersionNotLatestReleasePdsc
  | PackVersionNotAvailable
  | Eula
  | ExtractEula
  | LicenseNotFound
  | OsPathNotExist
  deriving DecidableEq, Repr

/-- Decidable equality for `Except`, so that concrete runs of the
    embedded operations can be checked by `decide`. -/
instance {ε α : Type} [DecidableEq ε] [DecidableEq α] :
    DecidableEq (Except ε α) := fun a b =>
  match a, b with
  | .ok x, .ok y =>
      if h : x = y then isTrue (by rw [h])
      else isFalse (fun hc => h (Except.ok.inj hc))
  | .error x, .error y =>
      if h : x = y then isTrue (by rw [h])
      else isFalse (fun hc => h (Except.error.inj hc))
  | .ok x, .error y => isFalse (fun hc => Except.noConfusion hc)
  | .error x, .ok y => isFalse (fun hc => Except.noConfusion hc)

/-- Contents of a regular file: its bytes and its read-only bit. -/
structure FData where
  bytes : List Nat
  ro : Bool
  deriving DecidableEq, Repr, Inhabited

/-- The pack-root filesystem state: regular files (path with data) and
    directories.  Intermediate parent directories of `Fs.dirs` entries
    are elided; no claim depends on them. -/
structure Fs where
  files : List (Path × FData)
  dirs : List Path
  deriving DecidableEq, Repr, Inhabited

/-- Does a regular file exist at `q`? -/
def fileExists (fs : Fs) (q : Path) : Bool :=
  fs.files.any (fun e => decide (e.1 = q))

/-- Content lookup (first entry wins; writes keep at most one entry per path). -/
def getFile (fs : Fs) (q : Path) : Option FData :=
  (fs.files.find? (fun e => decide (e.1 = q))).map (fun e => e.2)

/-- Does a directory exist at `q`? -/
def dirExists (fs : Fs) (q : Path) : Bool :=
  fs.dirs.any (fun e => decide (e = q))

/-- os.Create semantics: create the file, truncating any previous one. -/
def writeFile (fs : Fs) (q : Path) (d : FData) : Fs :=
  ⟨(q, d) :: fs.files.filter (fun e => decide (e.1 ≠ q)), fs.dirs⟩

/-- Remove all entries of one file path. -/
def eraseFile (fs : Fs) (q : Path) : Fs :=
  ⟨fs.files.filter (fun e => decide (e.1 ≠ q)), fs.dirs⟩

/-- utils.EnsureDir (src/cmd/utils/utils.go): os.MkdirAll, idempotent. -/
def ensureDir (fs : Fs) (q : Path) : Fs :=
  if dirExists fs q then fs else ⟨fs.files, q :: fs.dirs⟩

/-- os.Remove on a regular file: fails (with the os error) when the
    file does not exist. -/
def removeFileE (fs : Fs) (q : Path) : Except Err Fs :=
  if fileExists fs q then .ok (eraseFile fs q) else .error .OsPathNotExist

/-- os.Remove on a directory.  Call sites in the embedded code only
    remove directories they have just checked to be empty. -/
def removeDirE (fs : Fs) (q : Path) : Except Err Fs :=
  if dirExists fs q then
    .ok ⟨fs.files, fs.dirs.filter (fun e => decide (e ≠ q))⟩
  else .error .OsPathNotExist

/-- os.RemoveAll: delete everything at or below `q`; never fails. -/
def removeAll (fs : Fs) (q : Path) : Fs :=
  ⟨fs.files.filter (fun e => decide (¬ q <+: e.1)),
   fs.dirs.filter (fun e => decide (¬ q <+: e))⟩

/-- utils.IsEmpty (src/cmd/utils/utils.go): true iff the directory can
    be opened and holds no entry.  A missing directory yields false
    (os.Open fails and the Go function returns false). -/
def isEmptyDir (fs : Fs) (q : Path) : Bool :=
  dirExists fs q &&
  fs.files.all (fun e => decide (¬ (q <+: e.1 ∧ e.1 ≠ q))) &&
  fs.dirs.all (fun e => decide (¬ (q <+: e ∧ e ≠ q)))

/-- utils.CopyFile (src/cmd/utils/utils.go): os.Stat on the source
    (its error is returned unwrapped), then create + copy. -/
def copyFileE (fs : Fs) (src dst : Path) : Except Err Fs :=
  match getFile fs src with
  | some d => .ok (writeFile fs dst d)
  | none => .error .OsPathNotExist

/-- utils.CopyFile at a call site that discards the error
    (`_ = utils.CopyFile(...)` in pack.go): a failed copy leaves the
    state unchanged. -/
def copyFileQuiet (fs : Fs) (src dst : Path) : Fs :=
  match getFile fs src with
  | some d => writeFile fs dst d
  | none => fs

/-- utils.MoveFile (src/cmd/utils/utils.go): os.Rename; fails on a
    missing source, replaces any existing destination. -/
def moveFileE (fs : Fs) (src dst : Path) : Except Err Fs :=
  match getFile fs src with
  | some d => .ok (writeFile (eraseFile fs src) dst d)
  | none => .error .OsPathNotExist

/- Basic filesystem lemmas. -/

theorem fileExists_iff {fs : Fs} {q : Path} :
    fileExists fs q = true ↔ ∃ e ∈ fs.files, e.1 = q := by
  simp [fileExists, List.any_eq_true]

theorem fileExists_write (fs : Fs) (x : Path) (d : FData) (q : Path) :
    fileExists (writeFile fs x d) q = true ↔ q = x ∨ fileExists fs q = true := by
  rw [fileExists_iff, fileExists_iff]
  simp only [writeFile]
  constructor
  · rintro ⟨e, he, hq⟩
    rcases List.mem_cons.mp he with rfl | hmem
    · exact Or.inl hq.symm
    · exact Or.inr ⟨e, (List.mem_filter.mp hmem).1, hq⟩
  · rintro (rfl | ⟨e, he, hq⟩)
    · exact ⟨(q, d), List.mem_cons_self _ _, rfl⟩
    · by_cases hx : q = x
      · exact ⟨(x, d), List.mem_cons_self _ _, hx.symm⟩
      · refine ⟨e, List.mem_cons_of_mem _ (List.mem_filter.mpr ⟨he, ?_⟩), hq⟩
        exact decide_eq_true (by rw [hq]; exact hx)

theorem fileExists_write_self (fs : Fs) (x : Path) (d : FData) :
    fileExists (writeFile fs x d) x = true := by
  rw [fileExists_write]; exact Or.inl rfl

theorem fileExists_write_mono {fs : Fs} {q : Path} (x : Path) (d : FData)
    (h : fileExists fs q = true) :
    fileExists (writeFile fs x d) q = true := by
  rw [fileExists_write]; exact Or.inr h

theorem fileExists_write_ne {fs : Fs} {x q : Path} (d : FData) (h : q ≠ x) :
    fileExists (writeFile fs x d) q = fileExists fs q := by
  by_cases hq : fileExists fs q = true
  · rw [hq]; rw [fileExists_write]; exact Or.inr hq
  · simp only [Bool.not_eq_true] at hq
    rw [hq]
    by_cases hw : fileExists (writeFile fs x d) q = true
    · rcases (fileExists_write fs x d q).mp hw with h1 | h1
      · exact absurd h1 h
      · rw [h1] at hq; cases hq
    · simpa using hw

theorem getFile_write_self (fs : Fs) (x : Path) (d : FData) :
    getFile (writeFile fs x d) x = some d := by
  simp [getFile, writeFile, List.find?_cons]

theorem getFile_isSome_iff {fs : Fs} {q : Path} :
    (getFile fs q).isSome = true ↔ fileExists fs q = true := by
  simp [getFile, fileExists, List.find?_isSome, List.any_eq_true]

theorem fileExists_of_getFile {fs : Fs} {q : Path} {d : FData}
    (h : getFile fs q = some d) : fileExists fs q = true := by
  have hs : (getFile fs q).isSome = true := by rw [h]; rfl
  exact getFile_isSome_iff.mp hs

theorem fileExists_erase (fs : Fs) (x q : Path) :
    fileExists (eraseFile fs x) q = true ↔ q ≠ x ∧ fileExists fs q = true := by
  rw [fileExists_iff, fileExists_iff]
  simp only [eraseFile]
  constructor
  · rintro ⟨e, he, hq⟩
    have h2 := List.mem_filter.mp he
    exact ⟨by rw [← hq]; exact of_decide_eq_true h2.2, e, h2.1, hq⟩
  · rintro ⟨hne, e, he, hq⟩
    exact ⟨e, List.mem_filter.mpr ⟨he, decide_eq_true (by rw [hq]; exact hne)⟩, hq⟩

theorem ensureDir_files (fs : Fs) (q : Path) :
    (ensureDir fs q).files = fs.files := by
  unfold ensureDir; split <;> rfl

theorem fileExists_ensureDir (fs : Fs) (x q : Path) :
    fileExists (ensureDir fs x) q = fileExists fs q := by
  unfold fileExists; rw [ensureDir_files]

/- Semantic versions. -/

/-- A well-formed semantic version X.Y.Z.  The PDSC data never carries
    pre-release or build suffixes (spec section 4.2). -/
structure Semver where
  major : Nat
  minor : Nat
  patch : Nat
  deriving DecidableEq, Repr, Inhabited

/-- Modelled from the spec: utils.SemverCompare is not under src/.
    Spec section 4.2: "Comparison is semver"; it wraps
    golang.org/x/mod/semver.Compare, which on well-formed X.Y.Z versions
    is lexicographic on (major, minor, patch). -/
def svCmp (a b : Semver) : Ordering :=
  (compare a.major b.major).then
    ((compare a.minor b.minor).then (compare a.patch b.patch))

/-- Modelled from the spec: SemverCompare applied to possibly-empty
    version strings ("" is the zero value of targetVersion).
    golang.org/x/mod/semver treats an invalid version (such as "") as
    less than every valid one and equal to another invalid one. -/
def svCmpO : Option Semver → Option Semver → Ordering
  | none, none => .eq
  | none, some _ => .lt
  | some _, none => .gt
  | some a, some b => svCmp a b

/-- Render a version as its canonical X.Y.Z string (used in file names
    and directory names). -/
def verStr (v : Semver) : String :=
  toString v.major ++ "." ++ toString v.minor ++ "." ++ toString v.patch

/-- Modelled from the spec: xml.PdscXML.LatestVersion is not under src/.
    Spec section 3: "releases are ordered newest-first; LatestVersion() =
    releases[0].version"; the Go function returns "" (here `none`) when
    there are no releases. -/
def latestVersion (releases : List Semver) : Option Semver :=
  releases.head?

/-- Modelled from the spec: xml.PdscXML.FindReleaseTagByVersion is not
    under src/.  It returns the first release tag whose version matches,
    nil (here `none`) when the version appears in no release. -/
def findRelease (releases : List Semver) (v : Semver) : Option Semver :=
  releases.find? (fun r => decide (r = v))

/-- The Greater (>=) branch of PackType.resolveVersionModifier
    (src/cmd/installer/pack.go lines 499-508).  `target` is the current
    p.targetVersion (`none` for the Go zero value ""); the branch leaves
    it unchanged (after an error log) when no release satisfies the
    minimum, and otherwise sets it to pdsc.LatestVersion(). -/
def resolveGreater (version : Semver) (target : Option Semver)
    (releases : List Semver) : Option Semver :=
  if target = none ∧ svCmpO (some version) (latestVersion releases) = .gt then
    target
  else
    latestVersion releases

/-- The release scan of the GreatestCompatible (@~) branch of
    resolveVersionModifier (src/cmd/installer/pack.go lines 514-521):
    first release with the same major number and semver at least
    p.Version, in PDSC order. -/
def findCompat (version : Semver) : List Semver → Option Semver
  | [] => none
  | r :: rest =>
      if r.major = version.major ∧ svCmp r version ≠ .lt then some r
      else findCompat version rest

/-- The GreatestCompatible (@~) branch of resolveVersionModifier
    (src/cmd/installer/pack.go lines 513-530), including its fallback
    that fires only when p.targetVersion was already a version greater
    than p.Version. -/
def resolveGreatestCompatible (version : Semver) (target : Option Semver)
    (releases : List Semver) : Option Semver :=
  match findCompat version releases with
  | some r => some r
  | none =>
      if svCmpO target (some version) = .gt then latestVersion releases
      else target

/-- Modelled from the spec: the command driver that reports an
    unresolved target version is not under src/ (resolveVersionModifier
    only logs there and leaves p.targetVersion empty).  Spec section
    4.2: "if ref.version > pdsc.LatestVersion(): fail
    PackVersionNotAvailable"; errs.ErrPackVersionNotAvailable is
    declared in src/cmd/errors/errors.go.  A fresh pack reference
    enters resolution with targetVersion = "" (`none`). -/
def resolveGreaterE (version : Semver) (releases : List Semver) :
    Except Err Semver :=
  match resolveGreater version none releases with
  | none => .error .PackVersionNotAvailable
  | some w => .ok w

/-- Modelled from the spec: same error reporting for the
    GreatestCompatible (@~) modifier ("If none exists, fail
    PackVersionNotAvailable", spec section 4.2). -/
def resolveGreatestCompatibleE (version : Semver) (releases : List Semver) :
    Except Err Semver :=
  match resolveGreatestCompatible version none releases with
  | none => .error .PackVersionNotAvailable
  | some w => .ok w

/-- The version-consistency check of PackType.validate
    (src/cmd/installer/pack.go lines 180-195): the version being
    installed must be the PDSC's latest release; otherwise the error
    tells whether it is absent from the releases or merely not the
    latest. -/
def validateVersion (version : Semver) (releases : List Semver) :
    Except Err Unit :=
  if latestVersion releases ≠ some version then
    if findRelease releases version = none then .error .PackVersionNotFoundInPdsc
    else .error .PackVersionNotLatestReleasePdsc
  else .ok ()

/- The fetcher (src/cmd/utils/utils.go, DownloadFile). -/

/-- An HTTP response as DownloadFile observes it: a status code and the
    body bytes.  `none` at the call site stands for a transport
    failure of http.Get. -/
structure HttpResp where
  status : Nat
  body : List Nat
  deriving DecidableEq, Repr

/-- utils.DownloadFile (src/cmd/utils/utils.go lines 28-61).  The
    destination file is created first (os.Create); on a transport
    failure or a status other than 200 the function returns an error
    without removing the file it created.  `urlBase` is path.Base of
    the URL. -/
def downloadFile (cacheDir : Path) (urlBase : String) (resp : Option HttpResp)
    (fs : Fs) : Fs × Except Err Path :=
  let filePath := cacheDir ++ [urlBase]
  let fs1 := writeFile fs filePath ⟨[], false⟩
  match resp with
  | none => (fs1, .error .FailedDownloadingFile)
  | some r =>
      if r.status ≠ 200 then (fs1, .error .BadRequest)
      else (writeFile fs1 filePath ⟨r.body, false⟩, .ok filePath)

/- The safe archive extractor. -/

/-- One zip archive entry: its name as slash-separated components
    (backslashes already normalized, as the Go code does with
    strings.Replace), whether it is a directory entry (a Go name ending
    in "/"), and its uncompressed bytes. -/
structure ZEntry where
  name : List String
  isDir : Bool
  bytes : List Nat
  deriving DecidableEq, Repr

/-- Strip the single leading subfolder from an entry name, exactly like
    strings.TrimPrefix(name, subfolder+"/"): an entry that does not
    begin with the subfolder keeps its full name. -/
def stripSub (sub : Option String) (name : List String) : List String :=
  match sub with
  | none => name
  | some s =>
      match name with
      | [] => []
      | c :: rest => if c = s then rest else c :: rest

/-- Path normalization as performed by path.Join/path.Clean: empty and
    "." components disappear. -/
def normComps (name : List String) : List String :=
  name.filter (fun c => decide (c ≠ "" ∧ c ≠ "."))

/-- Does the normalized name still contain a ".." component (and hence
    escape the destination once joined)? -/
def hasDotDot (name : List String) : Bool :=
  name.any (fun c => decide (c = ".."))

/-- Modelled from the spec: utils.SecureInflateFile is not under src/
    (src/cmd/installer/pack.go calls it; src/cmd/utils/utils.go only
    holds the plain InflateFile it wraps).  Spec section 4.4: strip the
    subfolder, reject any entry whose normalized name contains "../"
    with InsecureZipFileName, reject entries over 20 GB with
    FileTooBig, create directories for directory entries, write file
    entries with default (writable) permissions.  The write mechanics
    follow utils.InflateFile (src/cmd/utils/utils.go lines 82-111). -/
def secureInflateFile (fs : Fs) (destDir : Path) (sub : Option String)
    (e : ZEntry) : Fs × Except Err Unit :=
  let n := normComps (stripSub sub e.name)
  if hasDotDot n then (fs, .error .InsecureZipFileName)
  else if e.isDir then (ensureDir fs (destDir ++ n), .ok ())
  else if e.bytes.length > 21474836480 then (fs, .error .FileTooBig)
  else (writeFile fs (destDir ++ n) ⟨e.bytes, false⟩, .ok ())

/-- The extraction loop of PackType.install (src/cmd/installer/pack.go
    lines 310-330): inflate entries in order, stopping at the first
    error. -/
def inflateAll (fs : Fs) (destDir : Path) (sub : Option String) :
    List ZEntry → Fs × Except Err Unit
  | [] => (fs, .ok ())
  | e :: rest =>
      match secureInflateFile fs destDir sub e with
      | (fs1, .ok _) => inflateAll fs1 destDir sub rest
      | (fs1, .error err) => (fs1, .error err)

/- Packs and the installation layout. -/

/-- The fields of installer.PackType (src/cmd/installer/pack.go) that
    the install/uninstall engine reads.  `version` is the concrete
    version GetVersion() yields once resolution is done; `license` is
    the (slash-normalized) path of the license file inside the archive
    from the parsed PDSC, `none` when pdsc.License is empty; `releases`
    are the parsed PDSC release versions, newest first; `path` points to
    the local archive file. -/
structure PackType where
  vendor : String
  name : String
  version : Semver
  license : Option (List String)
  releases : List Semver
  isPublic : Bool
  isDownloaded : Bool
  path : Path
  deriving DecidableEq, Repr

/-- PackType.PackID (src/cmd/installer/pack.go): Vendor.PackName. -/
def packId (p : PackType) : String :=
  p.vendor ++ "." ++ p.name

/-- PackType.PackFileName: Vendor.PackName.x.y.z.pack. -/
def packFileName (p : PackType) : String :=
  packId p ++ "." ++ verStr p.version ++ ".pack"

/-- PackType.PdscFileName: Vendor.PackName.pdsc. -/
def pdscFileName (p : PackType) : String :=
  packId p ++ ".pdsc"

/-- PackType.PdscFileNameWithVersion: Vendor.PackName.x.y.z.pdsc. -/
def pdscFileNameWithVersion (p : PackType) : String :=
  packId p ++ "." ++ verStr p.version ++ ".pdsc"

/-- The directories of installer.PacksInstallationType that
    install/uninstall use. -/
structure Layout where
  packRoot : Path
  downloadDir : Path
  localDir : Path
  deriving DecidableEq, Repr

/-- Modelled from the spec: the construction of the Installation value
    is not under src/.  Spec sections 3 and 6: the download, local and
    web directories are the distinct children .Download, .Local, .Web
    of the pack-root. -/
def layoutOf (pr : Path) : Layout :=
  ⟨pr, pr ++ [".Download"], pr ++ [".Local"]⟩

/-- PackType.validate (src/cmd/installer/pack.go lines 153-204): find
    the first entry whose base name is Vendor.Pack.pdsc, enforce the
    depth rule, record the subfolder, inflate and parse that single
    entry, and run the version-consistency check.  Parsing is abstract
    here (the parsed releases are carried by the pack value); reading a
    directory entry as a PDSC fails, modelled as ReadingPdsc.  The
    temporary single-entry extraction (to a throwaway directory that is
    deleted again) has no net filesystem effect and is elided. -/
def validateZ (p : PackType) (entries : List ZEntry) :
    Except Err (Option String) :=
  match entries.find? (fun e => decide (e.name.getLast? = some (pdscFileName p))) with
  | none => .error .PdscFileNotFound
  | some e =>
      let seps := e.name.length - 1 + (if e.isDir then 1 else 0)
      if seps > 1 then .error .PdscFileTooDeepInPack
      else
        let sub := if seps = 1 ∧ e.isDir = false then e.name.head? else none
        if hasDotDot (normComps e.name) then .error .InsecureZipFileName
        else if e.isDir then .error .ReadingPdsc
        else (validateVersion p.version p.releases).map (fun _ => sub)

/- The license gate. -/

/-- The answer of the UI collaborator (ui.DisplayAndWaitForEULA in
    src/cmd/ui/eula.go): Agree, Decline, or Extract; a pre-set
    ui.Extract flag behaves as Extract. -/
inductive EulaChoice where
  | agree
  | decline
  | extract
  deriving DecidableEq, Repr

/-- PackType.readEula (src/cmd/installer/pack.go lines 405-430): the
    bytes of the archive entry whose slash-normalized name equals the
    PDSC's license path, none when absent (ErrLicenseNotFound at the
    call sites). -/
def readEula (entries : List ZEntry) (lic : List String) : Option (List Nat) :=
  (entries.find? (fun e => decide (e.name = lic))).map (fun e => e.bytes)

/-- PackType.checkEula (src/cmd/installer/pack.go lines 435-450)
    together with the UI collaborator's verdict: read the license out
    of the archive (LicenseNotFound when missing), then Agree maps to
    true, Decline to false, Extract to the ExtractEula sentinel.  The
    best-effort text decoding (cat.FromBytes) is abstract. -/
def checkEulaFn (entries : List ZEntry) (lic : List String)
    (choice : EulaChoice) : Except Err Bool :=
  match readEula entries lic with
  | none => .error .LicenseNotFound
  | some _ =>
      match choice with
      | .agree => .ok true
      | .decline => .ok false
      | .extract => .error .ExtractEula

/-- path.Base of a slash path given as components ("." for an empty
    path, as in Go). -/
def lastStr (l : List String) : String :=
  (l.getLast?).getD "."

/-- String concatenation on the final component of a path, as
    `packPath + "." + path.Base(license)` concatenates path strings. -/
def appendToLast (q : Path) (s : String) : Path :=
  q.dropLast ++ [(q.getLast?).getD "" ++ s]

/-- PackType.extractEula (src/cmd/installer/pack.go lines 453-479):
    re-read the license bytes and
    write them to `<packPath>.<licenseBasename>` with utils.FileModeRO
    (0444, read-only); a pre-existing file is made writable and removed
    first, which amounts to an overwrite. -/
def extractEula (fs : Fs) (packPath : Path) (lic : List String)
    (entries : List ZEntry) : Fs × Except Err Unit :=
  match readEula entries lic with
  | none => (fs, .error .LicenseNotFound)
  | some b =>
      let eulaFileName := appendToLast packPath ("." ++ lastStr lic)
      (writeFile fs eulaFileName ⟨b, true⟩, .ok ())

/- Install and uninstall. -/

/-- The descriptor reconciliation step of PackType.install
    (src/cmd/installer/pack.go lines 335-343): copy the extracted PDSC
    from the pack home directory to .Local (only when the pack is not
    public) and to .Download under the versioned name; both copies
    discard their error. -/
def commitDescriptors (L : Layout) (p : PackType) (fs : Fs) : Fs :=
  let packHomeDir := L.packRoot ++ [p.vendor, p.name, verStr p.version]
  let pdscFilePath := packHomeDir ++ [pdscFileName p]
  let fs3 :=
    if p.isPublic then fs
    else copyFileQuiet fs pdscFilePath (L.localDir ++ [pdscFileName p])
  copyFileQuiet fs3 pdscFilePath (L.downloadDir ++ [pdscFileNameWithVersion p])

/-- The archive disposition step of PackType.install
    (src/cmd/installer/pack.go lines 345-357): copy a locally sourced
    archive into .Download (preserving the original), and move a
    downloaded one there — but only when its base name differs from the
    canonical pack file name. -/
def commitDisposition (L : Layout) (p : PackType) (fs : Fs) :
    Fs × Except Err Unit :=
  let packBackupPath := L.downloadDir ++ [packFileName p]
  if p.isDownloaded then
    if p.path.getLast? ≠ some (packFileName p) then
      match moveFileE fs p.path packBackupPath with
      | .error e => (fs, .error e)
      | .ok fs5 => (fs5, .ok ())
    else (fs, .ok ())
  else
    match copyFileE fs p.path packBackupPath with
    | .error e => (fs, .error e)
    | .ok fs5 => (fs5, .ok ())

/-- The committing tail of PackType.install (src/cmd/installer/pack.go
    lines 287-357): create the pack home directory (os.MkdirAll is
    assumed to succeed), inflate every entry into it stripping the
    subfolder, then reconcile descriptors and dispose of the archive. -/
def installCommit (L : Layout) (p : PackType) (entries : List ZEntry)
    (sub : Option String) (fs : Fs) : Fs × Except Err Unit :=
  let packHomeDir := L.packRoot ++ [p.vendor, p.name, verStr p.version]
  match inflateAll (ensureDir fs packHomeDir) packHomeDir sub entries with
  | (fs2, .error e) => (fs2, .error e)
  | (fs2, .ok _) => commitDisposition L p (commitDescriptors L p fs2)

/-- PackType.install (src/cmd/installer/pack.go lines 247-357).
    zip.OpenReader fails on a missing archive (FailedDecompressingFile);
    then validate; then the license gate: with a license and EULA
    checking on, consult the user (Extract triggers extractEula on the
    .Download backup path and returns its result; Decline fails with
    Eula); with EULA checking off, proceed after a log line; without a
    license, a set ui.Extract flag fails with LicenseNotFound.  Only
    then is the pack home directory created and the archive extracted
    and committed. -/
def install (L : Layout) (p : PackType) (entries : List ZEntry)
    (doCheckEula uiExtract : Bool) (choice : EulaChoice) (fs : Fs) :
    Fs × Except Err Unit :=
  if fileExists fs p.path = false then (fs, .error .FailedDecompressingFile)
  else
    match validateZ p entries with
    | .error e => (fs, .error e)
    | .ok sub =>
        match p.license with
        | some lic =>
            if doCheckEula then
              match checkEulaFn entries lic choice with
              | .error e =>
                  if e = .ExtractEula then
                    extractEula fs (L.downloadDir ++ [packFileName p]) lic entries
                  else (fs, .error e)
              | .ok agreed =>
                  if agreed then installCommit L p entries sub fs
                  else (fs, .error .Eula)
            else installCommit L p entries sub fs
        | none =>
            if uiExtract then (fs, .error .LicenseNotFound)
            else installCommit L p entries sub fs

/-- The tail of PackType.uninstall (src/cmd/installer/pack.go lines
    393-401): remove the vendor directory when it has become empty. -/
def uninstallVendor (L : Layout) (p : PackType) (fs : Fs) :
    Fs × Except Err Unit :=
  let vendorPath := L.packRoot ++ [p.vendor]
  if isEmptyDir fs vendorPath then
    match removeDirE fs vendorPath with
    | .error e => (fs, .error e)
    | .ok fs2 => (fs2, .ok ())
  else (fs, .ok ())

/-- PackType.uninstall (src/cmd/installer/pack.go lines 367-402):
    remove the version directory tree, then the Vendor/Pack directory
    when empty — and in that case, for a non-public pack, also
    os.Remove the .Local descriptor, returning its error unchanged —
    then the vendor directory when empty. -/
def uninstall (L : Layout) (p : PackType) (fs : Fs) : Fs × Except Err Unit :=
  let fs1 := removeAll fs (L.packRoot ++ [p.vendor, p.name, verStr p.version])
  let packPath := L.packRoot ++ [p.vendor, p.name]
  if isEmptyDir fs1 packPath then
    match removeDirE fs1 packPath with
    | .error e => (fs1, .error e)
    | .ok fs2 =>
        if p.isPublic then uninstallVendor L p fs2
        else
          match removeFileE fs2 (L.localDir ++ [pdscFileName p]) with
          | .error e => (fs2, .error e)
          | .ok fs3 => uninstallVendor L p fs3
  else uninstallVendor L p fs1

/- Helper lemmas about version lookup. -/

theorem findRelease_eq_none_iff {rel : List Semver} {v : Semver} :
    findRelease rel v = none ↔ v ∉ rel := by
  rw [findRelease, List.find?_eq_none]
  constructor
  · intro h hm
    have := h v hm
    simp at this
  · intro h x hx
    simp only [decide_eq_true_eq]
    intro he
    exact h (he ▸ hx)

/- C2: DownloadFile on a non-2xx status. -/

/-- C2 (amended): for every HTTP download whose response status is not
    2xx, DownloadFile returns the BadRequest error, but the partial
    destination file created in the cache directory REMAINS on disk
    (src DownloadFile never removes the file os.Create made).
    The code actually treats every status other than 200 OK this way,
    which subsumes every non-2xx status. -/
theorem download_bad_status_keeps_partial_file (cacheDir : Path)
    (urlBase : String) (st : Nat) (body : List Nat) (fs : Fs)
    (h : ¬ (200 ≤ st ∧ st < 300)) :
    downloadFile cacheDir urlBase (some ⟨st, body⟩) fs =
      (writeFile fs (cacheDir ++ [urlBase]) ⟨[], false⟩, .error .BadRequest) ∧
    fileExists (downloadFile cacheDir urlBase (some ⟨st, body⟩) fs).1
      (cacheDir ++ [urlBase]) = true := by
  have hne : st ≠ 200 := by
    rintro rfl
    exact h ⟨le_refl 200, by norm_num⟩
  refine ⟨by simp [downloadFile, hne], ?_⟩
  simp only [downloadFile, hne, ne_eq, not_false_eq_true, if_true]
  exact fileExists_write_self _ _ _

/-- Witness for the amended C2 theorem at a concrete 404 download. -/
theorem download_bad_status_keeps_partial_file_witness :
    downloadFile [".cache"] "V.P.1.0.0.pack" (some ⟨404, []⟩) ⟨[], []⟩ =
      (writeFile ⟨[], []⟩ [".cache", "V.P.1.0.0.pack"] ⟨[], false⟩,
        .error .BadRequest) ∧
    fileExists (downloadFile [".cache"] "V.P.1.0.0.pack"
      (some ⟨404, []⟩) ⟨[], []⟩).1 [".cache", "V.P.1.0.0.pack"] = true :=
  download_bad_status_keeps_partial_file [".cache"] "V.P.1.0.0.pack" 404 []
    ⟨[], []⟩ (by decide)

/-- C2 counterexample: a download answered with status 404 returns
    BadRequest, yet the partial file in the cache directory is NOT
    deleted — it is false that the file does not remain on disk.  This
    refutes the deletion half of the claim. -/
theorem download_bad_status_counterexample :
    (downloadFile [".cache"] "f.pack" (some ⟨404, [1]⟩) ⟨[], []⟩).2 =
      .error .BadRequest ∧
    ¬ (fileExists (downloadFile [".cache"] "f.pack"
        (some ⟨404, [1]⟩) ⟨[], []⟩).1 [".cache", "f.pack"] = false) := by
  decide

/- C3: the Greater (>=) version modifier. -/

/-- C3: for a pack reference with the Greater (>=) modifier and a PDSC
    whose release history is `l :: rest` (so pdsc.LatestVersion() = l):
    when ref.version is semver-greater than l, resolution fails with
    PackVersionNotAvailable; otherwise the resolved version is l, the
    latest. -/
theorem greater_resolves_to_latest (v l : Semver) (rest : List Semver) :
    resolveGreaterE v (l :: rest) =
      (if svCmp v l = .gt then .error .PackVersionNotAvailable else .ok l) := by
  by_cases h : svCmp v l = .gt <;>
    simp [resolveGreaterE, resolveGreater, svCmpO, latestVersion, h]

/- C4: the GreatestCompatible (@~) version modifier. -/

/-- C4: for a pack reference with the GreatestCompatible (@~) modifier,
    the resolved version is the FIRST release (in PDSC newest-first
    order, i.e. List.find?) with the same major number as ref.version
    and semver at least ref.version, and resolution fails with
    PackVersionNotAvailable when no such release exists; in particular
    releases [1.5.3, 1.2.1, 1.2.0, 0.9.0] with @~1.2.0 resolve
    to 1.5.3. -/
theorem greatest_compatible_resolves_first_match (v : Semver)
    (releases : List Semver) :
    (resolveGreatestCompatibleE v releases =
      match releases.find?
          (fun r => decide (r.major = v.major ∧ svCmp r v ≠ .lt)) with
      | some r => .ok r
      | none => .error .PackVersionNotAvailable) ∧
    resolveGreatestCompatibleE ⟨1, 2, 0⟩
      [⟨1, 5, 3⟩, ⟨1, 2, 1⟩, ⟨1, 2, 0⟩, ⟨0, 9, 0⟩] = .ok ⟨1, 5, 3⟩ := by
  constructor
  · have hfind : findCompat v releases =
        releases.find? (fun r => decide (r.major = v.major ∧ svCmp r v ≠ .lt)) := by
      induction releases with
      | nil => rfl
      | cons r rest ih =>
          by_cases h : r.major = v.major ∧ svCmp r v ≠ .lt <;>
            simp [findCompat, List.find?_cons, h, ih]
    unfold resolveGreatestCompatibleE resolveGreatestCompatible
    rw [hfind]
    cases hf : releases.find?
        (fun r => decide (r.major = v.major ∧ svCmp r v ≠ Ordering.lt)) with
    | none => simp [svCmpO]
    | some r => rfl
  · decide

/- C5: the PDSC version-consistency check of validate. -/

/-- C5: validation succeeds exactly when the version being installed is
    pdsc.LatestVersion(); when it differs, validate fails with
    PackVersionNotFoundInPdsc if the version appears in none of the
    releases, and with PackVersionNotLatestReleasePdsc if it appears
    but is not the latest. -/
theorem validate_version_latest_rule (v : Semver) (rel : List Semver) :
    (validateVersion v rel = .ok () ↔ latestVersion rel = some v) ∧
    (latestVersion rel ≠ some v → v ∉ rel →
      validateVersion v rel = .error .PackVersionNotFoundInPdsc) ∧
    (latestVersion rel ≠ some v → v ∈ rel →
      validateVersion v rel = .error .PackVersionNotLatestReleasePdsc) := by
  refine ⟨⟨fun h => ?_, fun h => ?_⟩, fun hl hm => ?_, fun hl hm => ?_⟩
  · by_cases hl : latestVersion rel = some v
    · exact hl
    · exfalso
      unfold validateVersion at h
      rw [if_pos hl] at h
      split at h <;> cases h
  · unfold validateVersion
    rw [if_neg (by simp [h])]
  · unfold validateVersion
    rw [if_pos hl, if_pos (findRelease_eq_none_iff.mpr hm)]
  · unfold validateVersion
    rw [if_pos hl, if_neg (fun hc => findRelease_eq_none_iff.mp hc hm)]

/-- Witness for C5: version 1.0.0 against releases [2.0.0, 1.0.0] is in
    the releases but not the latest, so validation fails with
    PackVersionNotLatestReleasePdsc. -/
theorem validate_version_latest_rule_witness :
    validateVersion ⟨1, 0, 0⟩ [⟨2, 0, 0⟩, ⟨1, 0, 0⟩] =
      .error .PackVersionNotLatestReleasePdsc :=
  (validate_version_latest_rule ⟨1, 0, 0⟩ [⟨2, 0, 0⟩, ⟨1, 0, 0⟩]).2.2
    (by decide) (by decide)

/- Growth and monotonicity lemmas for the extractor and the commit
   steps: which files an operation can create, and that no operation
   before the final archive move ever removes a file. -/

theorem secureInflate_grow {fs fs1 : Fs} {d : Path} {s : Option String}
    {e : ZEntry} {r : Except Err Unit}
    (hstep : secureInflateFile fs d s e = (fs1, r)) {q : Path}
    (h : fileExists fs1 q = true) :
    fileExists fs q = true ∨ q = d ++ normComps (stripSub s e.name) := by
  simp only [secureInflateFile] at hstep
  split_ifs at hstep
  · cases hstep; exact Or.inl h
  · cases hstep; rw [fileExists_ensureDir] at h; exact Or.inl h
  · cases hstep; exact Or.inl h
  · cases hstep
    rcases (fileExists_write _ _ _ _).mp h with h1 | h1
    · exact Or.inr h1
    · exact Or.inl h1

theorem secureInflate_mono {fs fs1 : Fs} {d : Path} {s : Option String}
    {e : ZEntry} {r : Except Err Unit}
    (hstep : secureInflateFile fs d s e = (fs1, r)) {q : Path}
    (h : fileExists fs q = true) : fileExists fs1 q = true := by
  simp only [secureInflateFile] at hstep
  split_ifs at hstep <;> cases hstep
  · exact h
  · rw [fileExists_ensureDir]; exact h
  · exact h
  · exact fileExists_write_mono _ _ h

theorem secureInflate_ok_writes {fs fs1 : Fs} {d : Path} {s : Option String}
    {e : ZEntry} {u : Unit}
    (hstep : secureInflateFile fs d s e = (fs1, .ok u))
    (hdir : e.isDir = false) :
    fileExists fs1 (d ++ normComps (stripSub s e.name)) = true := by
  simp only [secureInflateFile] at hstep
  split_ifs at hstep with h1 h2 h3
  · exact absurd (congrArg Prod.snd hstep) (by simp)
  · rw [hdir] at h2; cases h2
  · exact absurd (congrArg Prod.snd hstep) (by simp)
  · cases hstep
    exact fileExists_write_self _ _ _

theorem inflateAll_grow {d : Path} {s : Option String} (es : List ZEntry) :
    ∀ (fs fs2 : Fs) (r : Except Err Unit), inflateAll fs d s es = (fs2, r) →
      ∀ q : Path, fileExists fs2 q = true →
        fileExists fs q = true ∨ d <+: q := by
  induction es with
  | nil =>
      intro fs fs2 r h q hq
      unfold inflateAll at h
      cases h
      exact Or.inl hq
  | cons e rest ih =>
      intro fs fs2 r h q hq
      unfold inflateAll at h
      cases hstep : secureInflateFile fs d s e with
      | mk fs1 st =>
        rw [hstep] at h
        cases st with
        | ok u =>
            rcases ih fs1 fs2 r h q hq with h1 | h1
            · rcases secureInflate_grow hstep h1 with h2 | h2
              · exact Or.inl h2
              · exact Or.inr (by rw [h2]; exact List.prefix_append d _)
            · exact Or.inr h1
        | error err =>
            cases h
            rcases secureInflate_grow hstep hq with h2 | h2
            · exact Or.inl h2
            · exact Or.inr (by rw [h2]; exact List.prefix_append d _)

theorem inflateAll_mono {d : Path} {s : Option String} (es : List ZEntry) :
    ∀ (fs fs2 : Fs) (r : Except Err Unit), inflateAll fs d s es = (fs2, r) →
      ∀ q : Path, fileExists fs q = true → fileExists fs2 q = true := by
  induction es with
  | nil =>
      intro fs fs2 r h q hq
      unfold inflateAll at h
      cases h
      exact hq
  | cons e rest ih =>
      intro fs fs2 r h q hq
      unfold inflateAll at h
      cases hstep : secureInflateFile fs d s e with
      | mk fs1 st =>
        rw [hstep] at h
        cases st with
        | ok u => exact ih fs1 fs2 r h q (secureInflate_mono hstep hq)
        | error err =>
            cases h
            exact secureInflate_mono hstep hq

theorem inflateAll_ok_writes (d : Path) (s : Option String)
    (es : List ZEntry) :
    ∀ (fs fs2 : Fs) (u : Unit), inflateAll fs d s es = (fs2, .ok u) →
      ∀ e ∈ es, e.isDir = false →
        fileExists fs2 (d ++ normComps (stripSub s e.name)) = true := by
  induction es with
  | nil =>
      intro fs fs2 u h e he
      exact absurd he (List.not_mem_nil e)
  | cons e0 rest ih =>
      intro fs fs2 u h e he hdir
      unfold inflateAll at h
      cases hstep : secureInflateFile fs d s e0 with
      | mk fs1 st =>
        rw [hstep] at h
        cases st with
        | error err => exact absurd (congrArg Prod.snd h) (by simp)
        | ok u0 =>
            rcases List.mem_cons.mp he with rfl | hmem
            · exact inflateAll_mono rest fs1 fs2 _ h _
                (secureInflate_ok_writes hstep hdir)
            · exact ih fs1 fs2 u h e hmem hdir

theorem copyQuiet_grow {fs : Fs} {a b q : Path}
    (h : fileExists (copyFileQuiet fs a b) q = true) :
    fileExists fs q = true ∨ q = b := by
  unfold copyFileQuiet at h
  cases hg : getFile fs a with
  | none => rw [hg] at h; exact Or.inl h
  | some dta =>
      rw [hg] at h
      rcases (fileExists_write _ _ _ _).mp h with h1 | h1
      · exact Or.inr h1
      · exact Or.inl h1

theorem copyQuiet_mono (fs : Fs) (a b : Path) {q : Path}
    (h : fileExists fs q = true) :
    fileExists (copyFileQuiet fs a b) q = true := by
  unfold copyFileQuiet
  cases hg : getFile fs a with
  | none => exact h
  | some dta => exact fileExists_write_mono _ _ h

theorem copyQuiet_writes {fs : Fs} {a : Path} (b : Path)
    (h : fileExists fs a = true) :
    fileExists (copyFileQuiet fs a b) b = true := by
  unfold copyFileQuiet
  cases hg : getFile fs a with
  | none =>
      rw [← getFile_isSome_iff, hg] at h
      cases h
  | some dta => exact fileExists_write_self _ _ _

theorem copyE_ok_shape {fs fs5 : Fs} {a b : Path}
    (h : copyFileE fs a b = .ok fs5) :
    ∃ dta, getFile fs a = some dta ∧ fs5 = writeFile fs b dta := by
  unfold copyFileE at h
  cases hg : getFile fs a with
  | none => rw [hg] at h; cases h
  | some dta =>
      rw [hg] at h
      exact ⟨dta, rfl, (Except.ok.inj h).symm⟩

theorem moveE_ok_shape {fs fs5 : Fs} {a b : Path}
    (h : moveFileE fs a b = .ok fs5) :
    ∃ dta, getFile fs a = some dta ∧ fs5 = writeFile (eraseFile fs a) b dta := by
  unfold moveFileE at h
  cases hg : getFile fs a with
  | none => rw [hg] at h; cases h
  | some dta =>
      rw [hg] at h
      exact ⟨dta, rfl, (Except.ok.inj h).symm⟩

theorem commitDescriptors_grow {L : Layout} {p : PackType} {fs : Fs} {q : Path}
    (h : fileExists (commitDescriptors L p fs) q = true) :
    fileExists fs q = true ∨ q = L.localDir ++ [pdscFileName p] ∨
    q = L.downloadDir ++ [pdscFileNameWithVersion p] := by
  unfold commitDescriptors at h
  rcases copyQuiet_grow h with h1 | h1
  · by_cases hpub : p.isPublic = true
    · rw [if_pos hpub] at h1
      exact Or.inl h1
    · rw [if_neg hpub] at h1
      rcases copyQuiet_grow h1 with h2 | h2
      · exact Or.inl h2
      · exact Or.inr (Or.inl h2)
  · exact Or.inr (Or.inr h1)

theorem commitDescriptors_mono (L : Layout) (p : PackType) (fs : Fs) {q : Path}
    (h : fileExists fs q = true) :
    fileExists (commitDescriptors L p fs) q = true := by
  unfold commitDescriptors
  apply copyQuiet_mono
  by_cases hpub : p.isPublic = true
  · rw [if_pos hpub]; exact h
  · rw [if_neg hpub]; exact copyQuiet_mono _ _ _ h

theorem commitDisposition_grow {L : Layout} {p : PackType} {fs fs2 : Fs}
    {r : Except Err Unit} (h : commitDisposition L p fs = (fs2, r)) {q : Path}
    (hq : fileExists fs2 q = true) :
    fileExists fs q = true ∨ q = L.downloadDir ++ [packFileName p] := by
  simp only [commitDisposition] at h
  split_ifs at h
  · split at h
    next e hmv =>
      cases h
      exact Or.inl hq
    next fs5 hmv =>
      cases h
      obtain ⟨dta, -, hsh⟩ := moveE_ok_shape hmv
      rw [hsh] at hq
      rcases (fileExists_write _ _ _ _).mp hq with h1 | h1
      · exact Or.inr h1
      · exact Or.inl ((fileExists_erase _ _ _).mp h1).2
  · cases h; exact Or.inl hq
  · split at h
    next e hcp =>
      cases h
      exact Or.inl hq
    next fs5 hcp =>
      cases h
      obtain ⟨dta, -, hsh⟩ := copyE_ok_shape hcp
      rw [hsh] at hq
      rcases (fileExists_write _ _ _ _).mp hq with h1 | h1
      · exact Or.inr h1
      · exact Or.inl h1

theorem installCommit_grow {L : Layout} {p : PackType} {entries : List ZEntry}
    {sub : Option String} {fs fs2 : Fs} {r : Except Err Unit}
    (h : installCommit L p entries sub fs = (fs2, r)) {q : Path}
    (hq : fileExists fs2 q = true) :
    fileExists fs q = true ∨
    (L.packRoot ++ [p.vendor, p.name, verStr p.version]) <+: q ∨
    q = L.localDir ++ [pdscFileName p] ∨
    q = L.downloadDir ++ [pdscFileNameWithVersion p] ∨
    q = L.downloadDir ++ [packFileName p] := by
  simp only [installCommit] at h
  split at h
  next fsi e hinf =>
    have hfs : fsi = fs2 := congrArg Prod.fst h
    rw [← hfs] at hq
    rcases inflateAll_grow entries _ fsi _ hinf q hq with h1 | h1
    · rw [fileExists_ensureDir] at h1; exact Or.inl h1
    · exact Or.inr (Or.inl h1)
  next fsi u hinf =>
    rcases commitDisposition_grow h hq with h1 | h1
    · rcases commitDescriptors_grow h1 with h2 | h2 | h2
      · rcases inflateAll_grow entries _ fsi _ hinf q h2 with h3 | h3
        · rw [fileExists_ensureDir] at h3; exact Or.inl h3
        · exact Or.inr (Or.inl h3)
      · exact Or.inr (Or.inr (Or.inl h2))
      · exact Or.inr (Or.inr (Or.inr (Or.inl h2)))
    · exact Or.inr (Or.inr (Or.inr (Or.inr h1)))

/-- Which file the ExtractEula branch can create: only the license file
    next to the backup path. -/
theorem extractEula_grow {fs fs2 : Fs} {packPath : Path} {lic : List String}
    {entries : List ZEntry} {r : Except Err Unit}
    (h : extractEula fs packPath lic entries = (fs2, r)) {q : Path}
    (hq : fileExists fs2 q = true) :
    fileExists fs q = true ∨
    q = appendToLast packPath ("." ++ lastStr lic) := by
  unfold extractEula at h
  cases hr : readEula entries lic with
  | none => rw [hr] at h; cases h; exact Or.inl hq
  | some b =>
      rw [hr] at h
      cases h
      rcases (fileExists_write _ _ _ _).mp hq with h1 | h1
      · exact Or.inr h1
      · exact Or.inl h1

theorem install_grow {L : Layout} {p : PackType} {entries : List ZEntry}
    {doCheckEula uiExtract : Bool} {choice : EulaChoice} {fs fs2 : Fs}
    {r : Except Err Unit}
    (h : install L p entries doCheckEula uiExtract choice fs = (fs2, r))
    {q : Path} (hq : fileExists fs2 q = true) :
    fileExists fs q = true ∨
    (L.packRoot ++ [p.vendor, p.name, verStr p.version]) <+: q ∨
    q = L.localDir ++ [pdscFileName p] ∨
    q = L.downloadDir ++ [pdscFileNameWithVersion p] ∨
    q = L.downloadDir ++ [packFileName p] ∨
    (∃ lic, p.license = some lic ∧
      q = appendToLast (L.downloadDir ++ [packFileName p]) ("." ++ lastStr lic)) := by
  have fromCommit : ∀ sub : Option String,
      installCommit L p entries sub fs = (fs2, r) →
      fileExists fs q = true ∨
      (L.packRoot ++ [p.vendor, p.name, verStr p.version]) <+: q ∨
      q = L.localDir ++ [pdscFileName p] ∨
      q = L.downloadDir ++ [pdscFileNameWithVersion p] ∨
      q = L.downloadDir ++ [packFileName p] ∨
      (∃ lic, p.license = some lic ∧
        q = appendToLast (L.downloadDir ++ [packFileName p])
          ("." ++ lastStr lic)) := by
    intro sub hc
    rcases installCommit_grow hc hq with h1 | h1 | h1 | h1 | h1
    · exact Or.inl h1
    · exact Or.inr (Or.inl h1)
    · exact Or.inr (Or.inr (Or.inl h1))
    · exact Or.inr (Or.inr (Or.inr (Or.inl h1)))
    · exact Or.inr (Or.inr (Or.inr (Or.inr (Or.inl h1))))
  simp only [install] at h
  by_cases hex : fileExists fs p.path = false
  · rw [if_pos hex] at h
    cases h; exact Or.inl hq
  · rw [if_neg hex] at h
    split at h
    next e hv => cases h; exact Or.inl hq
    next sub hv =>
      split at h
      next lic hlic =>
        by_cases hce : doCheckEula = true
        · rw [if_pos hce] at h
          split at h
          next e hce2 =>
            by_cases hee : e = Err.ExtractEula
            · rw [if_pos hee] at h
              rcases extractEula_grow h hq with h1 | h1
              · exact Or.inl h1
              · exact Or.inr (Or.inr (Or.inr (Or.inr (Or.inr ⟨lic, hlic, h1⟩))))
            · rw [if_neg hee] at h
              cases h; exact Or.inl hq
          next agreed hce2 =>
            by_cases hag : agreed = true
            · rw [if_pos hag] at h
              exact fromCommit sub h
            · rw [if_neg hag] at h
              cases h; exact Or.inl hq
        · rw [if_neg hce] at h
          exact fromCommit sub h
      next hlic =>
        by_cases hue : uiExtract = true
        · rw [if_pos hue] at h
          cases h; exact Or.inl hq
        · rw [if_neg hue] at h
          exact fromCommit sub h

/- C1: path safety of the extraction pass. -/

/-- C1: (i) any archive entry whose normalized (subfolder-stripped)
    name still contains a ".." component is rejected with
    InsecureZipFileName and writes nothing; (ii) extraction only ever
    creates files below the destination directory; (iii) during an
    install — whose extraction destination is
    packRoot/Vendor/Pack/X.Y.Z/ — every file the pack-root gains that
    does not lie below that directory is one of the explicitly managed
    artifacts (the .Local/.Download descriptor copies, the .Download
    archive backup, or the extracted license file), never an archive
    entry escaping the destination. -/
theorem install_extraction_path_safety :
    (∀ (fs : Fs) (destDir : Path) (sub : Option String) (e : ZEntry),
      hasDotDot (normComps (stripSub sub e.name)) = true →
      secureInflateFile fs destDir sub e = (fs, .error .InsecureZipFileName)) ∧
    (∀ (destDir : Path) (sub : Option String) (es : List ZEntry)
      (fs fs2 : Fs) (r : Except Err Unit),
      inflateAll fs destDir sub es = (fs2, r) →
      ∀ q : Path, fileExists fs2 q = true →
        fileExists fs q = true ∨ destDir <+: q) ∧
    (∀ (L : Layout) (p : PackType) (entries : List ZEntry)
      (doCheckEula uiExtract : Bool) (choice : EulaChoice) (fs fs2 : Fs)
      (r : Except Err Unit),
      install L p entries doCheckEula uiExtract choice fs = (fs2, r) →
      ∀ q : Path, fileExists fs2 q = true →
        fileExists fs q = true ∨
        (L.packRoot ++ [p.vendor, p.name, verStr p.version]) <+: q ∨
        q = L.localDir ++ [pdscFileName p] ∨
        q = L.downloadDir ++ [pdscFileNameWithVersion p] ∨
        q = L.downloadDir ++ [packFileName p] ∨
        (∃ lic, p.license = some lic ∧
          q = appendToLast (L.downloadDir ++ [packFileName p])
            ("." ++ lastStr lic))) := by
  refine ⟨?_, ?_, ?_⟩
  · intro fs destDir sub e h
    simp [secureInflateFile, h]
  · intro destDir sub es fs fs2 r h q hq
    exact inflateAll_grow es fs fs2 r h q hq
  · intro L p entries doCheckEula uiExtract choice fs fs2 r h q hq
    exact install_grow h hq

/-- Witness for C1: the classic `../../etc/passwd` entry is rejected
    with InsecureZipFileName and nothing is written. -/
theorem install_extraction_path_safety_witness :
    secureInflateFile ⟨[], []⟩ ["pr", "V", "P", "1.0.0"] none
      ⟨["..", "..", "etc", "passwd"], false, [1]⟩ =
      (⟨[], []⟩, .error .InsecureZipFileName) :=
  install_extraction_path_safety.1 ⟨[], []⟩ ["pr", "V", "P", "1.0.0"] none
    ⟨["..", "..", "etc", "passwd"], false, [1]⟩ (by decide)

/- Support lemmas for uninstall and the license gate. -/

theorem fileExists_removeAll_imp {fs : Fs} {a q : Path}
    (h : fileExists (removeAll fs a) q = true) : fileExists fs q = true := by
  rw [fileExists_iff] at h ⊢
  simp only [removeAll] at h
  obtain ⟨e, he, hq⟩ := h
  exact ⟨e, (List.mem_filter.mp he).1, hq⟩

theorem isEmptyDir_dirExists {fs : Fs} {q : Path}
    (h : isEmptyDir fs q = true) : dirExists fs q = true := by
  unfold isEmptyDir at h
  exact ((Bool.and_eq_true _ _).mp ((Bool.and_eq_true _ _).mp h).1).1

theorem removeDirE_files {fs fs2 : Fs} {q : Path}
    (h : removeDirE fs q = .ok fs2) : fs2.files = fs.files := by
  unfold removeDirE at h
  split_ifs at h
  · cases (Except.ok.inj h); rfl

theorem appendToLast_snoc (xs : Path) (a s : String) :
    appendToLast (xs ++ [a]) s = xs ++ [a ++ s] := by
  simp [appendToLast]

/- C9: uninstall with a missing .Local descriptor. -/

/-- C9 (amended): for an uninstall of a non-public pack that empties
    the Vendor/Pack directory, a missing .Local/Vendor.Pack.pdsc is
    NOT treated as already absent: os.Remove's error is returned
    unchanged and the uninstall fails instead of succeeding. -/
theorem uninstall_missing_local_pdsc_fails (L : Layout) (p : PackType)
    (fs : Fs) (hpub : p.isPublic = false)
    (hempty : isEmptyDir
      (removeAll fs (L.packRoot ++ [p.vendor, p.name, verStr p.version]))
      (L.packRoot ++ [p.vendor, p.name]) = true)
    (hmiss : fileExists fs (L.localDir ++ [pdscFileName p]) = false) :
    (uninstall L p fs).2 = .error .OsPathNotExist := by
  suffices hsuf : ∀ out, uninstall L p fs = out →
      out.2 = .error .OsPathNotExist from hsuf _ rfl
  intro out h
  have hdir := isEmptyDir_dirExists hempty
  have hmiss1 : fileExists
      (removeAll fs (L.packRoot ++ [p.vendor, p.name, verStr p.version]))
      (L.localDir ++ [pdscFileName p]) = false := by
    by_cases hc : fileExists
        (removeAll fs (L.packRoot ++ [p.vendor, p.name, verStr p.version]))
        (L.localDir ++ [pdscFileName p]) = true
    · rw [fileExists_removeAll_imp hc] at hmiss; cases hmiss
    · simpa using hc
  simp only [uninstall] at h
  rw [if_pos hempty] at h
  split at h
  next e hrd =>
    exfalso
    unfold removeDirE at hrd
    rw [if_pos hdir] at hrd
    cases hrd
  next fs2 hrd =>
    have hfiles := removeDirE_files hrd
    have hmiss2 : fileExists fs2 (L.localDir ++ [pdscFileName p]) = false := by
      unfold fileExists
      rw [hfiles]
      exact hmiss1
    rw [hpub] at h
    rw [if_neg (by simp)] at h
    split at h
    next e hrf =>
      unfold removeFileE at hrf
      rw [if_neg (by simp [hmiss2])] at hrf
      cases h
      cases hrf
      rfl
    next fs3 hrf =>
      exfalso
      unfold removeFileE at hrf
      rw [if_neg (by simp [hmiss2])] at hrf
      cases hrf

/-- Witness for the amended C9 theorem. -/
theorem uninstall_missing_local_pdsc_fails_witness :
    (uninstall (layoutOf ["pr"])
      ⟨"V", "P", ⟨1, 0, 0⟩, none, [⟨1, 0, 0⟩], false, false, []⟩
      ⟨[(["pr", "V", "P", "1.0.0", "g.txt"], ⟨[2], false⟩)],
       [["pr"], ["pr", "V"], ["pr", "V", "P"], ["pr", "V", "P", "1.0.0"],
        ["pr", ".Local"]]⟩).2 = .error .OsPathNotExist :=
  uninstall_missing_local_pdsc_fails (layoutOf ["pr"])
    ⟨"V", "P", ⟨1, 0, 0⟩, none, [⟨1, 0, 0⟩], false, false, []⟩
    ⟨[(["pr", "V", "P", "1.0.0", "g.txt"], ⟨[2], false⟩)],
     [["pr"], ["pr", "V"], ["pr", "V", "P"], ["pr", "V", "P", "1.0.0"],
      ["pr", ".Local"]]⟩ (by decide) (by decide) (by decide)

/-- C9 counterexample: a concrete non-public pack V.P 1.0.0 installed
    under pr/V/P/1.0.0, with no pr/.Local/V.P.pdsc on disk; its
    uninstall empties pr/V/P, reaches os.Remove on the missing local
    descriptor, and returns that error — it does not succeed, refuting
    "the uninstall still succeeds rather than returning an error". -/
theorem uninstall_missing_local_pdsc_counterexample :
    (uninstall (layoutOf ["pr"])
      ⟨"V", "P", ⟨1, 0, 0⟩, none, [⟨1, 0, 0⟩], false, false, []⟩
      ⟨[(["pr", "V", "P", "1.0.0", "f.txt"], ⟨[1], false⟩)],
       [["pr"], ["pr", "V"], ["pr", "V", "P"], ["pr", "V", "P", "1.0.0"],
        ["pr", ".Local"]]⟩).2 ≠ .ok () := by decide

/- C10: declining the license leaves the tree untouched. -/

/-- C10: for an install of a pack whose PDSC names a license, with EULA
    checking on and the license present in the archive, a Decline
    answer makes install return the Eula error with the filesystem
    state completely unchanged: the license gate runs strictly before
    the pack home directory is created, so no directory is created and
    no archive entry is extracted. -/
theorem install_decline_leaves_tree_untouched (L : Layout) (p : PackType)
    (entries : List ZEntry) (uiExtract : Bool) (fs : Fs) (lic : List String)
    (sub : Option String) (b : List Nat)
    (hlic : p.license = some lic)
    (hread : readEula entries lic = some b)
    (hex : fileExists fs p.path = true)
    (hval : validateZ p entries = .ok sub) :
    install L p entries true uiExtract .decline fs = (fs, .error .Eula) := by
  simp [install, checkEulaFn, hlic, hval, hread, hex]

/-- Witness for C10 at a concrete declined install. -/
theorem install_decline_leaves_tree_untouched_witness :
    install (layoutOf ["pr"])
      ⟨"V", "P", ⟨1, 0, 0⟩, some ["LICENSE.txt"], [⟨1, 0, 0⟩], false, false,
        ["a", "V.P.1.0.0.pack"]⟩
      [⟨["V.P.pdsc"], false, [7]⟩, ⟨["LICENSE.txt"], false, [9]⟩]
      true false .decline
      ⟨[(["a", "V.P.1.0.0.pack"], ⟨[1], false⟩)], []⟩ =
      (⟨[(["a", "V.P.1.0.0.pack"], ⟨[1], false⟩)], []⟩, .error .Eula) :=
  install_decline_leaves_tree_untouched (layoutOf ["pr"])
    ⟨"V", "P", ⟨1, 0, 0⟩, some ["LICENSE.txt"], [⟨1, 0, 0⟩], false, false,
      ["a", "V.P.1.0.0.pack"]⟩
    [⟨["V.P.pdsc"], false, [7]⟩, ⟨["LICENSE.txt"], false, [9]⟩]
    false ⟨[(["a", "V.P.1.0.0.pack"], ⟨[1], false⟩)], []⟩
    ["LICENSE.txt"] none [9]
    (by decide) (by decide) (by decide) (by decide)

/- C8: the ExtractEula sentinel. -/

/-- C8: when the license gate yields the ExtractEula sentinel (the user
    chose Extract, the PDSC names a license and it is present in the
    archive), install writes the license bytes read from the archive to
    `<archivePath>.<licenseBasename>` — where archivePath is the
    .Download backup path packRoot/.Download/Vendor.Pack.X.Y.Z.pack
    that install passes to extractEula — with the read-only mode bit
    set, and aborts: below packRoot/Vendor/Pack/X.Y.Z/ nothing changes
    and no directory is created. -/
theorem install_extract_eula_writes_license (pr : Path) (p : PackType)
    (entries : List ZEntry) (uiExtract : Bool) (fs : Fs) (lic : List String)
    (sub : Option String) (b : List Nat)
    (hlic : p.license = some lic)
    (hread : readEula entries lic = some b)
    (hex : fileExists fs p.path = true)
    (hval : validateZ p entries = .ok sub) :
    install (layoutOf pr) p entries true uiExtract .extract fs =
      (writeFile fs (pr ++ [".Download", packFileName p ++ ("." ++ lastStr lic)])
        ⟨b, true⟩, .ok ()) ∧
    getFile (install (layoutOf pr) p entries true uiExtract .extract fs).1
      (pr ++ [".Download", packFileName p ++ ("." ++ lastStr lic)]) =
      some ⟨b, true⟩ ∧
    (∀ q : Path, (pr ++ [p.vendor, p.name, verStr p.version]) <+: q →
      fileExists (install (layoutOf pr) p entries true uiExtract .extract fs).1
        q = fileExists fs q) ∧
    (install (layoutOf pr) p entries true uiExtract .extract fs).1.dirs =
      fs.dirs := by
  have hpath : appendToLast ((layoutOf pr).downloadDir ++ [packFileName p])
      ("." ++ lastStr lic) =
      pr ++ [".Download", packFileName p ++ ("." ++ lastStr lic)] := by
    show appendToLast ((pr ++ [".Download"]) ++ [packFileName p]) _ = _
    rw [appendToLast_snoc, List.append_assoc]
    rfl
  have hmain : install (layoutOf pr) p entries true uiExtract .extract fs =
      (writeFile fs (pr ++ [".Download", packFileName p ++ ("." ++ lastStr lic)])
        ⟨b, true⟩, .ok ()) := by
    rw [← hpath]
    simp [install, checkEulaFn, extractEula, hlic, hval, hread, hex]
  refine ⟨hmain, ?_, ?_, ?_⟩
  · rw [hmain]
    exact getFile_write_self _ _ _
  · intro q hpre
    rw [hmain]
    apply fileExists_write_ne
    intro he
    have hlen := hpre.length_le
    rw [he] at hlen
    simp [List.length_append] at hlen
  · rw [hmain]
    rfl

/-- Witness for C8 at a concrete extract-requested install. -/
theorem install_extract_eula_writes_license_witness :
    install (layoutOf ["pr"])
      ⟨"V", "P", ⟨1, 0, 0⟩, some ["LICENSE.txt"], [⟨1, 0, 0⟩], false, false,
        ["a", "V.P.1.0.0.pack"]⟩
      [⟨["V.P.pdsc"], false, [7]⟩, ⟨["LICENSE.txt"], false, [9]⟩]
      true false .extract
      ⟨[(["a", "V.P.1.0.0.pack"], ⟨[1], false⟩)], []⟩ =
      (writeFile ⟨[(["a", "V.P.1.0.0.pack"], ⟨[1], false⟩)], []⟩
        ["pr", ".Download",
          packFileName ⟨"V", "P", ⟨1, 0, 0⟩, some ["LICENSE.txt"],
            [⟨1, 0, 0⟩], false, false, ["a", "V.P.1.0.0.pack"]⟩ ++
            ("." ++ lastStr ["LICENSE.txt"])]
        ⟨[9], true⟩, .ok ()) :=
  (install_extract_eula_writes_license ["pr"]
    ⟨"V", "P", ⟨1, 0, 0⟩, some ["LICENSE.txt"], [⟨1, 0, 0⟩], false, false,
      ["a", "V.P.1.0.0.pack"]⟩
    [⟨["V.P.pdsc"], false, [7]⟩, ⟨["LICENSE.txt"], false, [9]⟩]
    false ⟨[(["a", "V.P.1.0.0.pack"], ⟨[1], false⟩)], []⟩
    ["LICENSE.txt"] none [9]
    (by decide) (by decide) (by decide) (by decide)).1

/- Support lemmas for the descriptor-reconciliation and archive
   disposition claims. -/

theorem fileExists_erase_self (fs : Fs) (x : Path) :
    fileExists (eraseFile fs x) x = false := by
  by_cases h : fileExists (eraseFile fs x) x = true
  · exact absurd rfl ((fileExists_erase _ _ _).mp h).1
  · simpa using h

theorem fileExists_erase_ne {fs : Fs} {x q : Path} (h : q ≠ x) :
    fileExists (eraseFile fs x) q = fileExists fs q := by
  by_cases hq : fileExists fs q = true
  · rw [hq]
    exact (fileExists_erase _ _ _).mpr ⟨h, hq⟩
  · have hq2 : fileExists fs q = false := by simpa using hq
    rw [hq2]
    by_cases hw : fileExists (eraseFile fs x) q = true
    · rw [((fileExists_erase _ _ _).mp hw).2] at hq2; cases hq2
    · simpa using hw

theorem copyQuiet_preserves_ne {fs : Fs} {a b q : Path} (hne : q ≠ b) :
    fileExists (copyFileQuiet fs a b) q = fileExists fs q := by
  unfold copyFileQuiet
  cases getFile fs a with
  | none => rfl
  | some dta => exact fileExists_write_ne _ hne

theorem snoc_pair_eq (pr : Path) (a b : String) :
    (pr ++ [a]) ++ [b] = pr ++ [a, b] := by
  rw [List.append_assoc]
  rfl

theorem append_pair_inj {pr : Path} {a b c d : String}
    (h : pr ++ [a, b] = pr ++ [c, d]) : a = c ∧ b = d := by
  have h2 := List.append_cancel_left h
  injection h2 with h3 h4
  injection h4 with h5 h6
  exact ⟨h3, h5⟩

theorem string_append_left_cancel {s t u : String} (h : s ++ t = s ++ u) :
    t = u := by
  have h2 : (s ++ t).data = (s ++ u).data := congrArg String.data h
  rw [String.data_append, String.data_append] at h2
  have h3 := List.append_cancel_left h2
  exact String.ext h3

theorem packFileName_ne_pdscFileNameWithVersion (p : PackType) :
    packFileName p ≠ pdscFileNameWithVersion p := by
  intro h
  have h2 := string_append_left_cancel h
  exact absurd h2 (by decide)

theorem pdscFileName_length (p : PackType) : 6 ≤ (pdscFileName p).length := by
  have h5 : (".pdsc" : String).length = 5 := by decide
  have h1 : ("." : String).length = 1 := by decide
  simp only [pdscFileName, packId, String.length_append, h5, h1]
  omega

/-- A successful install that did not go through the Extract branch of
    the license gate went through the full commit: the archive existed,
    validation succeeded, and the filesystem result is that of
    installCommit. -/
theorem install_ok_commit {L : Layout} {p : PackType} {entries : List ZEntry}
    {doCheckEula uiExtract : Bool} {choice : EulaChoice} {fs fs2 : Fs}
    (hgate : p.license = none ∨ doCheckEula = false ∨ choice ≠ .extract)
    (h : install L p entries doCheckEula uiExtract choice fs = (fs2, .ok ())) :
    fileExists fs p.path = true ∧
    ∃ sub, validateZ p entries = .ok sub ∧
      installCommit L p entries sub fs = (fs2, .ok ()) := by
  simp only [install] at h
  by_cases hex : fileExists fs p.path = false
  · rw [if_pos hex] at h
    exact absurd (congrArg Prod.snd h) (by simp)
  · rw [if_neg hex] at h
    have hex2 : fileExists fs p.path = true := by simpa using hex
    refine ⟨hex2, ?_⟩
    split at h
    next e hv => exact absurd (congrArg Prod.snd h) (by simp)
    next sub hv =>
      refine ⟨sub, hv, ?_⟩
      split at h
      next lic hlic =>
        by_cases hce : doCheckEula = true
        · rw [if_pos hce] at h
          split at h
          next e hce2 =>
            by_cases hee : e = Err.ExtractEula
            · exfalso
              rw [hee] at hce2
              have hch : choice = .extract := by
                unfold checkEulaFn at hce2
                cases hr : readEula entries lic with
                | none => rw [hr] at hce2; simp at hce2
                | some b => rw [hr] at hce2; cases choice <;> simp_all
              rcases hgate with hg | hg | hg
              · rw [hlic] at hg; cases hg
              · rw [hce] at hg; cases hg
              · exact hg hch
            · rw [if_neg hee] at h
              exact absurd (congrArg Prod.snd h) (by simp)
          next agreed hce2 =>
            by_cases hag : agreed = true
            · rw [if_pos hag] at h
              exact h
            · rw [if_neg hag] at h
              exact absurd (congrArg Prod.snd h) (by simp)
        · rw [if_neg hce] at h
          exact h
      next hlic =>
        by_cases hue : uiExtract = true
        · rw [if_pos hue] at h
          exact absurd (congrArg Prod.snd h) (by simp)
        · rw [if_neg hue] at h
          exact h

/-- A successful commit splits into a successful extraction followed by
    descriptor reconciliation and archive disposition. -/
theorem installCommit_ok_shape {L : Layout} {p : PackType}
    {entries : List ZEntry} {sub : Option String} {fs fs2 : Fs}
    (h : installCommit L p entries sub fs = (fs2, .ok ())) :
    ∃ fsi, inflateAll
        (ensureDir fs (L.packRoot ++ [p.vendor, p.name, verStr p.version]))
        (L.packRoot ++ [p.vendor, p.name, verStr p.version]) sub entries =
        (fsi, .ok ()) ∧
      commitDisposition L p (commitDescriptors L p fsi) = (fs2, .ok ()) := by
  simp only [installCommit] at h
  split at h
  next fsi e hinf => exact absurd (congrArg Prod.snd h) (by simp)
  next fsi u hinf =>
    cases u
    exact ⟨fsi, hinf, h⟩

/-- A successful validate pinpoints the PDSC entry of the archive: a
    file entry whose subfolder-stripped normalized name is exactly
    [Vendor.Pack.pdsc], so that extraction writes it at
    packHomeDir/Vendor.Pack.pdsc. -/
theorem validateZ_ok_entry {p : PackType} {entries : List ZEntry}
    {sub : Option String} (hv : validateZ p entries = .ok sub) :
    ∃ e ∈ entries, e.isDir = false ∧
      normComps (stripSub sub e.name) = [pdscFileName p] := by
  have hlen := pdscFileName_length p
  have hne1 : pdscFileName p ≠ "" := fun he => by
    rw [he] at hlen; exact absurd hlen (by decide)
  have hne2 : pdscFileName p ≠ "." := fun he => by
    rw [he] at hlen; exact absurd hlen (by decide)
  unfold validateZ at hv
  split at hv
  next hfind => cases hv
  next e hfind =>
    have hmem := List.mem_of_find?_eq_some hfind
    have hp := List.find?_some hfind
    have hlast : e.name.getLast? = some (pdscFileName p) :=
      of_decide_eq_true hp
    refine ⟨e, hmem, ?_⟩
    by_cases hdeep : e.name.length - 1 + (if e.isDir then 1 else 0) > 1
    · rw [if_pos hdeep] at hv; cases hv
    · rw [if_neg hdeep] at hv
      by_cases hdd : hasDotDot (normComps e.name) = true
      · rw [if_pos hdd] at hv; cases hv
      · rw [if_neg hdd] at hv
        by_cases hdir : e.isDir = true
        · rw [if_pos hdir] at hv; cases hv
        · rw [if_neg hdir] at hv
          have hdirf : e.isDir = false := by simpa using hdir
          refine ⟨hdirf, ?_⟩
          have hsub : sub = (if e.name.length - 1 +
              (if e.isDir then 1 else 0) = 1 ∧ e.isDir = false then
              e.name.head? else none) := by
            cases hvv : validateVersion p.version p.releases with
            | error err => rw [hvv] at hv; cases hv
            | ok u => rw [hvv] at hv; exact (Except.ok.inj hv).symm
          rw [hdirf] at hdeep hsub
          simp only [if_false, Bool.false_eq_true] at hdeep hsub
          rcases hEn : e.name with - | ⟨a, tl⟩
          · rw [hEn] at hlast; cases hlast
          · rcases hTl : tl with - | ⟨c, tl2⟩
            · rw [hEn, hTl] at hlast hsub
              simp only [List.getLast?_singleton, Option.some.injEq] at hlast
              simp only [List.length_singleton] at hsub
              norm_num at hsub
              rw [hsub, hlast]
              simp only [stripSub, normComps, List.filter]
              rw [decide_eq_true (show pdscFileName p ≠ "" ∧ pdscFileName p ≠ "."
                from ⟨hne1, hne2⟩)]
            · rcases hTl2 : tl2 with - | ⟨d, tl3⟩
              · rw [hEn, hTl, hTl2] at hlast hsub
                have hc : c = pdscFileName p := by
                  simpa using hlast
                have hsub2 : sub = some a := by
                  simpa using hsub
                rw [hsub2, hc]
                simp only [stripSub, if_pos rfl]
                simp only [normComps, List.filter]
                rw [decide_eq_true (show pdscFileName p ≠ "" ∧ pdscFileName p ≠ "."
                  from ⟨hne1, hne2⟩)]
              · exfalso
                rw [hEn, hTl, hTl2] at hdeep
                simp only [List.length_cons] at hdeep
                omega

theorem commitDisposition_preserves {L : Layout} {p : PackType} {fsd fs2 : Fs}
    (h : commitDisposition L p fsd = (fs2, .ok ())) {q : Path}
    (hq1 : q ≠ L.downloadDir ++ [packFileName p]) (hq2 : q ≠ p.path) :
    fileExists fs2 q = fileExists fsd q := by
  simp only [commitDisposition] at h
  split_ifs at h
  · split at h
    next e hmv => exact absurd (congrArg Prod.snd h) (by simp)
    next fs5 hmv =>
      have hfs : fs5 = fs2 := congrArg Prod.fst h
      obtain ⟨dta, -, hsh⟩ := moveE_ok_shape hmv
      rw [← hfs, hsh, fileExists_write_ne _ hq1, fileExists_erase_ne hq2]
  · have hfs : fsd = fs2 := congrArg Prod.fst h
    rw [← hfs]
  · split at h
    next e hcp => exact absurd (congrArg Prod.snd h) (by simp)
    next fs5 hcp =>
      have hfs : fs5 = fs2 := congrArg Prod.fst h
      obtain ⟨dta, -, hsh⟩ := copyE_ok_shape hcp
      rw [← hfs, hsh, fileExists_write_ne _ hq1]

theorem commitDescriptors_dl {L : Layout} {p : PackType} {fs : Fs}
    (h : fileExists fs ((L.packRoot ++ [p.vendor, p.name, verStr p.version]) ++
      [pdscFileName p]) = true) :
    fileExists (commitDescriptors L p fs)
      (L.downloadDir ++ [pdscFileNameWithVersion p]) = true := by
  unfold commitDescriptors
  apply copyQuiet_writes
  by_cases hpub : p.isPublic = true
  · rw [if_pos hpub]; exact h
  · rw [if_neg hpub]; exact copyQuiet_mono _ _ _ h

theorem commitDescriptors_local {L : Layout} {p : PackType} {fs : Fs}
    (hpub : p.isPublic = false)
    (hne : L.localDir ++ [pdscFileName p] ≠
      L.downloadDir ++ [pdscFileNameWithVersion p])
    (h : fileExists fs ((L.packRoot ++ [p.vendor, p.name, verStr p.version]) ++
      [pdscFileName p]) = true) :
    fileExists (commitDescriptors L p fs)
      (L.localDir ++ [pdscFileName p]) = true := by
  unfold commitDescriptors
  rw [copyQuiet_preserves_ne hne]
  rw [if_neg (by simp [hpub])]
  exact copyQuiet_writes _ h

theorem commitDescriptors_public_preserve {L : Layout} {p : PackType}
    {fs : Fs} (hpub : p.isPublic = true) {q : Path}
    (hne : q ≠ L.downloadDir ++ [pdscFileNameWithVersion p]) :
    fileExists (commitDescriptors L p fs) q = fileExists fs q := by
  unfold commitDescriptors
  rw [copyQuiet_preserves_ne hne, if_pos hpub]

/- C7: archive disposition after a successful install. -/

/-- C7 (amended): after every successful completed install (one that
    did not stop at the Extract license answer): a pre-existing local
    archive is copied to .Download/Vendor.Pack.X.Y.Z.pack and the
    original still exists; a downloaded archive is moved there — the
    backup exists and the file is gone from its previous location —
    ONLY when its base name differs from Vendor.Pack.X.Y.Z.pack; when
    the base names coincide the code performs no move and the file
    simply stays at its previous location. -/
theorem install_archive_disposition (L : Layout) (p : PackType)
    (entries : List ZEntry) (doCheckEula uiExtract : Bool)
    (choice : EulaChoice) (fs fs2 : Fs)
    (hgate : p.license = none ∨ doCheckEula = false ∨ choice ≠ .extract)
    (h : install L p entries doCheckEula uiExtract choice fs = (fs2, .ok ())) :
    (p.isDownloaded = false →
      fileExists fs2 (L.downloadDir ++ [packFileName p]) = true ∧
      fileExists fs2 p.path = true) ∧
    (p.isDownloaded = true → p.path.getLast? ≠ some (packFileName p) →
      fileExists fs2 (L.downloadDir ++ [packFileName p]) = true ∧
      fileExists fs2 p.path = false) ∧
    (p.isDownloaded = true → p.path.getLast? = some (packFileName p) →
      fileExists fs2 p.path = true) := by
  obtain ⟨hex, sub, hval, hcommit⟩ := install_ok_commit hgate h
  obtain ⟨fsi, hinf, hdisp⟩ := installCommit_ok_shape hcommit
  have hpath_fsi : fileExists fsi p.path = true := by
    apply inflateAll_mono entries _ fsi _ hinf
    rw [fileExists_ensureDir]
    exact hex
  have hpath_fsd : fileExists (commitDescriptors L p fsi) p.path = true :=
    commitDescriptors_mono _ _ _ hpath_fsi
  simp only [commitDisposition] at hdisp
  refine ⟨?_, ?_, ?_⟩
  · intro hdl
    rw [hdl] at hdisp
    rw [if_neg (by simp)] at hdisp
    split at hdisp
    next e hcp => exact absurd (congrArg Prod.snd hdisp) (by simp)
    next fs5 hcp =>
      have hfs : fs5 = fs2 := congrArg Prod.fst hdisp
      obtain ⟨dta, -, hsh⟩ := copyE_ok_shape hcp
      rw [← hfs, hsh]
      exact ⟨fileExists_write_self _ _ _, fileExists_write_mono _ _ hpath_fsd⟩
  · intro hdl hbne
    rw [hdl] at hdisp
    rw [if_pos rfl] at hdisp
    rw [if_pos hbne] at hdisp
    split at hdisp
    next e hmv => exact absurd (congrArg Prod.snd hdisp) (by simp)
    next fs5 hmv =>
      have hfs : fs5 = fs2 := congrArg Prod.fst hdisp
      obtain ⟨dta, -, hsh⟩ := moveE_ok_shape hmv
      have hne_path_backup : p.path ≠ L.downloadDir ++ [packFileName p] := by
        intro he
        apply hbne
        rw [he]
        exact List.getLast?_concat _
      rw [← hfs, hsh]
      refine ⟨fileExists_write_self _ _ _, ?_⟩
      rw [fileExists_write_ne _ hne_path_backup]
      exact fileExists_erase_self _ _
  · intro hdl hbeq
    rw [hdl] at hdisp
    rw [if_pos rfl] at hdisp
    rw [if_neg (not_not_intro hbeq)] at hdisp
    have hfs : commitDescriptors L p fsi = fs2 := congrArg Prod.fst hdisp
    rw [← hfs]
    exact hpath_fsd

/-- Witness for the amended C7 theorem: a pre-existing local archive is
    copied into .Download and the original preserved. -/
theorem install_archive_disposition_witness :
    fileExists (install (layoutOf ["pr"])
      ⟨"V", "P", ⟨1, 0, 0⟩, none, [⟨1, 0, 0⟩], true, false,
        ["a", "V.P.1.0.0.pack"]⟩
      [⟨["V.P.pdsc"], false, [7]⟩] false false .agree
      ⟨[(["a", "V.P.1.0.0.pack"], ⟨[1], false⟩)], []⟩).1
      ((layoutOf ["pr"]).downloadDir ++
        [packFileName ⟨"V", "P", ⟨1, 0, 0⟩, none, [⟨1, 0, 0⟩], true, false,
          ["a", "V.P.1.0.0.pack"]⟩]) = true ∧
    fileExists (install (layoutOf ["pr"])
      ⟨"V", "P", ⟨1, 0, 0⟩, none, [⟨1, 0, 0⟩], true, false,
        ["a", "V.P.1.0.0.pack"]⟩
      [⟨["V.P.pdsc"], false, [7]⟩] false false .agree
      ⟨[(["a", "V.P.1.0.0.pack"], ⟨[1], false⟩)], []⟩).1
      ["a", "V.P.1.0.0.pack"] = true :=
  (install_archive_disposition (layoutOf ["pr"])
    ⟨"V", "P", ⟨1, 0, 0⟩, none, [⟨1, 0, 0⟩], true, false,
      ["a", "V.P.1.0.0.pack"]⟩
    [⟨["V.P.pdsc"], false, [7]⟩] false false .agree
    ⟨[(["a", "V.P.1.0.0.pack"], ⟨[1], false⟩)], []⟩
    (install (layoutOf ["pr"])
      ⟨"V", "P", ⟨1, 0, 0⟩, none, [⟨1, 0, 0⟩], true, false,
        ["a", "V.P.1.0.0.pack"]⟩
      [⟨["V.P.pdsc"], false, [7]⟩] false false .agree
      ⟨[(["a", "V.P.1.0.0.pack"], ⟨[1], false⟩)], []⟩).1
    (Or.inl rfl) (by decide)).1 rfl

/-- C7 counterexample: a downloaded archive whose base name already
    equals Vendor.Pack.X.Y.Z.pack (the normal case for a pack fetched
    from its canonical URL, with the cache directory a distinct child
    of the pack-root as the spec prescribes) is NOT moved: the install
    succeeds, .Download/V.P.1.0.0.pack does not exist, and the archive
    still exists at its previous location. -/
theorem install_move_counterexample :
    (install (layoutOf ["pr"])
      ⟨"V", "P", ⟨1, 0, 0⟩, none, [⟨1, 0, 0⟩], true, true,
        ["pr", ".cache", "V.P.1.0.0.pack"]⟩
      [⟨["V.P.pdsc"], false, [7]⟩] false false .agree
      ⟨[(["pr", ".cache", "V.P.1.0.0.pack"], ⟨[1], false⟩)], []⟩).2 =
      .ok () ∧
    fileExists (install (layoutOf ["pr"])
      ⟨"V", "P", ⟨1, 0, 0⟩, none, [⟨1, 0, 0⟩], true, true,
        ["pr", ".cache", "V.P.1.0.0.pack"]⟩
      [⟨["V.P.pdsc"], false, [7]⟩] false false .agree
      ⟨[(["pr", ".cache", "V.P.1.0.0.pack"], ⟨[1], false⟩)], []⟩).1
      ["pr", ".Download", "V.P.1.0.0.pack"] = false ∧
    fileExists (install (layoutOf ["pr"])
      ⟨"V", "P", ⟨1, 0, 0⟩, none, [⟨1, 0, 0⟩], true, true,
        ["pr", ".cache", "V.P.1.0.0.pack"]⟩
      [⟨["V.P.pdsc"], false, [7]⟩] false false .agree
      ⟨[(["pr", ".cache", "V.P.1.0.0.pack"], ⟨[1], false⟩)], []⟩).1
      ["pr", ".cache", "V.P.1.0.0.pack"] = true := by
  decide

/- C6: descriptor reconciliation after a successful install. -/

/-- C6 (amended): after every successful completed install (the
    standard layout, an archive path that is not itself one of the two
    descriptor paths, and an install that did not stop at the Extract
    license answer): the versioned descriptor
    .Download/Vendor.Pack.X.Y.Z.pdsc exists; for a non-public pack the
    unversioned descriptor .Local/Vendor.Pack.pdsc exists; for a
    public pack NO copy into .Local is made — the presence of
    .Local/Vendor.Pack.pdsc is exactly what it was before the install
    (a stale pre-existing file is left in place, so "exists iff not
    public" does not hold in general). -/
theorem install_descriptor_reconciliation (pr : Path) (p : PackType)
    (entries : List ZEntry) (doCheckEula uiExtract : Bool)
    (choice : EulaChoice) (fs fs2 : Fs)
    (hgate : p.license = none ∨ doCheckEula = false ∨ choice ≠ .extract)
    (hp1 : p.path ≠ (layoutOf pr).downloadDir ++ [pdscFileNameWithVersion p])
    (hp2 : p.path ≠ (layoutOf pr).localDir ++ [pdscFileName p])
    (h : install (layoutOf pr) p entries doCheckEula uiExtract choice fs =
      (fs2, .ok ())) :
    fileExists fs2
      ((layoutOf pr).downloadDir ++ [pdscFileNameWithVersion p]) = true ∧
    (p.isPublic = false →
      fileExists fs2 ((layoutOf pr).localDir ++ [pdscFileName p]) = true) ∧
    (p.isPublic = true →
      fileExists fs2 ((layoutOf pr).localDir ++ [pdscFileName p]) =
        fileExists fs ((layoutOf pr).localDir ++ [pdscFileName p])) := by
  obtain ⟨hex, sub, hval, hcommit⟩ := install_ok_commit hgate h
  obtain ⟨fsi, hinf, hdisp⟩ := installCommit_ok_shape hcommit
  obtain ⟨e, hmem, hdirf, hnorm⟩ := validateZ_ok_entry hval
  have hpdsc : fileExists fsi
      (((layoutOf pr).packRoot ++ [p.vendor, p.name, verStr p.version]) ++
        [pdscFileName p]) = true := by
    have hw := inflateAll_ok_writes _ sub entries _ fsi () hinf e hmem hdirf
    rw [hnorm] at hw
    exact hw
  have hDL : (layoutOf pr).localDir ++ [pdscFileName p] ≠
      (layoutOf pr).downloadDir ++ [pdscFileNameWithVersion p] := by
    intro he
    rw [show (layoutOf pr).localDir = pr ++ [".Local"] from rfl,
        show (layoutOf pr).downloadDir = pr ++ [".Download"] from rfl,
        snoc_pair_eq, snoc_pair_eq] at he
    exact absurd (append_pair_inj he).1 (by decide)
  have hLB : (layoutOf pr).localDir ++ [pdscFileName p] ≠
      (layoutOf pr).downloadDir ++ [packFileName p] := by
    intro he
    rw [show (layoutOf pr).localDir = pr ++ [".Local"] from rfl,
        show (layoutOf pr).downloadDir = pr ++ [".Download"] from rfl,
        snoc_pair_eq, snoc_pair_eq] at he
    exact absurd (append_pair_inj he).1 (by decide)
  have hDB : (layoutOf pr).downloadDir ++ [pdscFileNameWithVersion p] ≠
      (layoutOf pr).downloadDir ++ [packFileName p] := by
    intro he
    rw [show (layoutOf pr).downloadDir = pr ++ [".Download"] from rfl,
        snoc_pair_eq, snoc_pair_eq] at he
    exact absurd (append_pair_inj he).2
      (Ne.symm (packFileName_ne_pdscFileNameWithVersion p))
  refine ⟨?_, ?_, ?_⟩
  · rw [commitDisposition_preserves hdisp hDB (Ne.symm hp1)]
    exact commitDescriptors_dl hpdsc
  · intro hpubF
    rw [commitDisposition_preserves hdisp hLB (Ne.symm hp2)]
    exact commitDescriptors_local hpubF hDL hpdsc
  · intro hpubT
    rw [commitDisposition_preserves hdisp hLB (Ne.symm hp2)]
    rw [commitDescriptors_public_preserve hpubT hDL]
    by_cases hcl : fileExists fs
        ((layoutOf pr).localDir ++ [pdscFileName p]) = true
    · rw [hcl]
      apply inflateAll_mono entries _ fsi _ hinf
      rw [fileExists_ensureDir]
      exact hcl
    · have hcl2 : fileExists fs
          ((layoutOf pr).localDir ++ [pdscFileName p]) = false := by
        simpa using hcl
      rw [hcl2]
      by_cases hw : fileExists fsi
          ((layoutOf pr).localDir ++ [pdscFileName p]) = true
      · exfalso
        rcases inflateAll_grow entries _ fsi _ hinf _ hw with h1 | h1
        · rw [fileExists_ensureDir] at h1
          rw [h1] at hcl2
          cases hcl2
        · have hlen := h1.length_le
          rw [show (layoutOf pr).localDir = pr ++ [".Local"] from rfl,
              show (layoutOf pr).packRoot = pr from rfl,
              snoc_pair_eq] at hlen
          simp only [List.length_append, List.length_cons,
            List.length_nil] at hlen
          omega
      · simpa using hw

/-- Witness for the amended C6 theorem: a non-public install creates
    both descriptors. -/
theorem install_descriptor_reconciliation_witness :
    fileExists (install (layoutOf ["pr"])
      ⟨"W", "Q", ⟨2, 1, 0⟩, none, [⟨2, 1, 0⟩], false, false,
        ["b", "W.Q.2.1.0.pack"]⟩
      [⟨["W.Q.pdsc"], false, [3]⟩] false false .agree
      ⟨[(["b", "W.Q.2.1.0.pack"], ⟨[4], false⟩)], []⟩).1
      ((layoutOf ["pr"]).localDir ++
        [pdscFileName ⟨"W", "Q", ⟨2, 1, 0⟩, none, [⟨2, 1, 0⟩], false, false,
          ["b", "W.Q.2.1.0.pack"]⟩]) = true :=
  (install_descriptor_reconciliation ["pr"]
    ⟨"W", "Q", ⟨2, 1, 0⟩, none, [⟨2, 1, 0⟩], false, false,
      ["b", "W.Q.2.1.0.pack"]⟩
    [⟨["W.Q.pdsc"], false, [3]⟩] false false .agree
    ⟨[(["b", "W.Q.2.1.0.pack"], ⟨[4], false⟩)], []⟩
    (install (layoutOf ["pr"])
      ⟨"W", "Q", ⟨2, 1, 0⟩, none, [⟨2, 1, 0⟩], false, false,
        ["b", "W.Q.2.1.0.pack"]⟩
      [⟨["W.Q.pdsc"], false, [3]⟩] false false .agree
      ⟨[(["b", "W.Q.2.1.0.pack"], ⟨[4], false⟩)], []⟩).1
    (Or.inl rfl) (by decide) (by decide) (by decide)).2.1 rfl

/-- C6 counterexample: a successful install of a PUBLIC pack into a
    pack-root that still holds a stale .Local/V.P.pdsc (left over, for
    instance, from the time before the pack became public): after the
    install the unversioned descriptor exists although the pack is
    public, refuting "exists if and only if the pack is not public". -/
theorem install_local_descriptor_counterexample :
    (install (layoutOf ["pr"])
      ⟨"V", "P", ⟨1, 0, 0⟩, none, [⟨1, 0, 0⟩], true, false,
        ["a", "V.P.1.0.0.pack"]⟩
      [⟨["V.P.pdsc"], false, [7]⟩] false false .agree
      ⟨[(["a", "V.P.1.0.0.pack"], ⟨[1], false⟩),
        (["pr", ".Local", "V.P.pdsc"], ⟨[2], false⟩)], []⟩).2 = .ok () ∧
    ¬ (fileExists (install (layoutOf ["pr"])
        ⟨"V", "P", ⟨1, 0, 0⟩, none, [⟨1, 0, 0⟩], true, false,
          ["a", "V.P.1.0.0.pack"]⟩
        [⟨["V.P.pdsc"], false, [7]⟩] false false .agree
        ⟨[(["a", "V.P.1.0.0.pack"], ⟨[1], false⟩),
          (["pr", ".Local", "V.P.pdsc"], ⟨[2], false⟩)], []⟩).1
        ["pr", ".Local", "V.P.pdsc"] = true ↔
      (⟨"V", "P", ⟨1, 0, 0⟩, none, [⟨1, 0, 0⟩], true, false,
        ["a", "V.P.1.0.0.pack"]⟩ : PackType).isPublic = false) := by
  decide

end Cpackget
